import Mathlib

/-!
Verification of the fmp-playground repository's batch financial-data
fetcher against its natural-language specification.

The development shallowly embeds the Python sources:

* `src/src/fmp_playground/fetch_financial_data.py` — the HTTP client
  (`FMPFinancialDataFetcher`), the company loader and the symbol
  resolver `find_company_by_symbol`;
* `src/scripts/fetch_financial_data.py` — the per-symbol fetch
  orchestrator (`fetch_annual_data`, `fetch_quarterly_data`,
  `fetch_ltm_data`, `fetch_ttm_data`, `main`);
* `src/scripts/fetch_all_companies_data.py` — the batch orchestrator
  (`get_processed_companies`, `distribute_companies`,
  `fetch_company_data`, `main`).

HTTP calls are modelled by the request descriptors they issue (the
response payloads are opaque and irrelevant to every claim).  The
reference data store (the `assets/*_companies.json` files) is modelled
as a function from country code to the list of company records loaded
by `load_companies` for that country.  Randomness (`random.shuffle`) is
modelled by an arbitrary shuffle function constrained to produce a
permutation of its input.  Filename manipulation is modelled over
`List Char`, with Python's single-character `str.replace`, `str.split`
and `str.isdigit` embedded as the corresponding character-list
operations.
-/

/-- One HTTP GET issued through `FMPFinancialDataFetcher._make_request`:
the endpoint path and the `period` / `limit` query parameters (absent
for the LTM/TTM endpoints, which are called without parameters).  The
`apikey` parameter added to every request carries no claim-relevant
information and is omitted. -/
structure Request where
  endpoint : String
  period : Option String
  limit : Option Nat
deriving DecidableEq, Repr

/-- `FMPFinancialDataFetcher.get_income_statement`: resolves the
default limit (`5 if period == 'annual' else 20` when the caller passes
no limit) and issues one GET to `income-statement/{symbol}`. -/
def get_income_statement (symbol period : String) (limit : Option Nat) : Request :=
  let l : Nat := match limit with
    | none => if period = "annual" then 5 else 20
    | some x => x
  ⟨"income-statement/" ++ symbol, some period, some l⟩

/-- `FMPFinancialDataFetcher.get_balance_sheet`. -/
def get_balance_sheet (symbol period : String) (limit : Option Nat) : Request :=
  let l : Nat := match limit with
    | none => if period = "annual" then 5 else 20
    | some x => x
  ⟨"balance-sheet-statement/" ++ symbol, some period, some l⟩

/-- `FMPFinancialDataFetcher.get_cash_flow`. -/
def get_cash_flow (symbol period : String) (limit : Option Nat) : Request :=
  let l : Nat := match limit with
    | none => if period = "annual" then 5 else 20
    | some x => x
  ⟨"cash-flow-statement/" ++ symbol, some period, some l⟩

/-- `FMPFinancialDataFetcher.get_financial_ratios`. -/
def get_financial_ratios (symbol period : String) (limit : Option Nat) : Request :=
  let l : Nat := match limit with
    | none => if period = "annual" then 5 else 20
    | some x => x
  ⟨"ratios/" ++ symbol, some period, some l⟩

/-- `FMPFinancialDataFetcher.get_key_metrics`. -/
def get_key_metrics (symbol period : String) (limit : Option Nat) : Request :=
  let l : Nat := match limit with
    | none => if period = "annual" then 5 else 20
    | some x => x
  ⟨"key-metrics/" ++ symbol, some period, some l⟩

/-- `FMPFinancialDataFetcher.get_ltm_data`: three sequential
parameter-less sub-requests (income statement, balance sheet, cash
flow), in the evaluation order of the Python dict literal. -/
def get_ltm_data (symbol : String) : List Request :=
  [⟨"income-statement-ltm/" ++ symbol, none, none⟩,
   ⟨"balance-sheet-statement-ltm/" ++ symbol, none, none⟩,
   ⟨"cash-flow-statement-ltm/" ++ symbol, none, none⟩]

/-- `FMPFinancialDataFetcher.get_ttm_data`: two sequential
parameter-less sub-requests (ratios, key metrics). -/
def get_ttm_data (symbol : String) : List Request :=
  [⟨"ratios-ttm/" ++ symbol, none, none⟩,
   ⟨"key-metrics-ttm/" ++ symbol, none, none⟩]

/-- `scripts/fetch_financial_data.fetch_annual_data`: the five
annual-period statement calls, in source order, each with the caller
omitting `limit`. -/
def fetch_annual_data (symbol : String) : List Request :=
  [get_income_statement symbol "annual" none,
   get_balance_sheet symbol "annual" none,
   get_cash_flow symbol "annual" none,
   get_financial_ratios symbol "annual" none,
   get_key_metrics symbol "annual" none]

/-- `scripts/fetch_financial_data.fetch_quarterly_data`: the five
quarterly-period statement calls, in source order. -/
def fetch_quarterly_data (symbol : String) : List Request :=
  [get_income_statement symbol "quarter" none,
   get_balance_sheet symbol "quarter" none,
   get_cash_flow symbol "quarter" none,
   get_financial_ratios symbol "quarter" none,
   get_key_metrics symbol "quarter" none]

/-- `scripts/fetch_financial_data.fetch_ltm_data` (delegates to the
client's `get_ltm_data`). -/
def fetch_ltm_data (symbol : String) : List Request :=
  get_ltm_data symbol

/-- `scripts/fetch_financial_data.fetch_ttm_data` (delegates to the
client's `get_ttm_data`). -/
def fetch_ttm_data (symbol : String) : List Request :=
  get_ttm_data symbol

/-- The straight-line request trace of `scripts/fetch_financial_data.main`
for one symbol: annual, then quarterly, then LTM, then TTM, strictly
sequentially. -/
def main_requests (symbol : String) : List Request :=
  fetch_annual_data symbol ++ fetch_quarterly_data symbol ++
    fetch_ltm_data symbol ++ fetch_ttm_data symbol

/-- A company record as loaded from the reference JSON files.  The
`country` key is optional in the loaded dictionaries (the scripts read
it with `dict.get` and a default), hence `Option String`. -/
structure Company where
  symbol : String
  name : String
  country : Option String
deriving DecidableEq, Repr

/-- The suffix-to-country table of `find_company_by_symbol`, in the
source's (insertion-ordered) iteration order. -/
def suffix_to_country : List (String × String) :=
  [(".KS", "KR"), (".KQ", "KR"), (".T", "JP"),
   (".SS", "CN"), (".SZ", "CN"), (".HK", "HK")]

/-- The country codes that have reference files
(`load_companies`' `country_exchanges` table). -/
def all_country_codes : List String := ["KR", "US", "JP", "CN", "HK"]

/-- Python's `str.endswith`, embedded via character lists (a string
ends with `suffix` iff its character sequence has `suffix`'s character
sequence as a suffix). -/
def pyEndsWith (s suffix : String) : Bool :=
  suffix.toList.isSuffixOf s.toList

/-- `next(c for c in load_companies(country) if c['symbol'] == symbol)`,
returning the first exact symbol match in the given country's reference
set (`refData` abstracts the concatenated contents of that country's
`assets/*_companies.json` files). -/
def lookupCountry (refData : String → List Company) (symbol country : String) :
    Option Company :=
  (refData country).find? (fun c => c.symbol == symbol)

/-- The suffix loop of `find_company_by_symbol`: for each table entry
whose suffix the symbol ends with, search that country's reference set;
on a miss (`StopIteration`) fall through to the next entry. -/
def trySuffixMatches (refData : String → List Company) (symbol : String) :
    List (String × String) → Option (Company × String)
  | [] => none
  | (suf, country) :: rest =>
    if pyEndsWith symbol suf then
      match lookupCountry refData symbol country with
      | some c => some (c, country)
      | none => trySuffixMatches refData symbol rest
    else trySuffixMatches refData symbol rest

/-- `find_company_by_symbol`: run the suffix loop; if it produces
nothing, search the US reference set; if that also misses, raise
(modelled as `Except.error` carrying the message's key content). -/
def find_company_by_symbol (refData : String → List Company) (symbol : String) :
    Except String (Company × String) :=
  match trySuffixMatches refData symbol suffix_to_country with
  | some r => Except.ok r
  | none =>
    match lookupCountry refData symbol "US" with
    | some c => Except.ok (c, "US")
    | none => Except.error ("symbol not found: " ++ symbol)

/-- The country key used by `distribute_companies` when grouping:
`company.get('country', 'UNKNOWN')`. -/
def distribute_country_key (c : Company) : String :=
  c.country.getD "UNKNOWN"

/-- The country label used by `fetch_company_data` when reporting an
attempt: `company.get('country', 'Unknown')`. -/
def fetch_country_label (c : Company) : String :=
  c.country.getD "Unknown"

/-- `defaultdict(list)` insertion: append `c` to the group keyed `k`,
creating the group at the end when the key is new (Python dicts
preserve insertion order). -/
def addToGroup : List (String × List Company) → String → Company →
    List (String × List Company)
  | [], k, c => [(k, [c])]
  | (k', g) :: rest, k, c =>
    if k' = k then (k', g ++ [c]) :: rest
    else (k', g) :: addToGroup rest k c

/-- The grouping loop of `distribute_companies`:
`companies_by_country[country].append(company)` over the unprocessed
companies, keyed by `company.get('country', 'UNKNOWN')`. -/
def groupByCountry (l : List Company) : List (String × List Company) :=
  l.foldl (fun acc c => addToGroup acc (distribute_country_key c) c) []

/-- One iteration of the round-robin loop of `distribute_companies`:
`distributed[worker_idx].append(company); worker_idx = (worker_idx + 1) % num_workers`. -/
def rrStep (n : Nat) (st : List (List Company) × Nat) (c : Company) :
    List (List Company) × Nat :=
  (st.1.set st.2 (st.1.getD st.2 [] ++ [c]), (st.2 + 1) % n)

/-- The round-robin loop of `distribute_companies`, distributing the
companies of all country groups (concatenated in dict order, the single
`worker_idx` carried across groups) over `n` worker lists. -/
def roundRobin (n : Nat) (l : List Company) : List (List Company) :=
  (l.foldl (rrStep n) (List.replicate n [], 0)).1

/-- The skip-processed filter of `distribute_companies`
(`if symbol in processed: continue`). -/
def unprocessed_companies (companies : List Company) (processed : List String) :
    List Company :=
  companies.filter (fun c => !(processed.contains c.symbol))

/-- The shuffle pass of `distribute_companies`: each country group is
shuffled in place (`sh` stands for one run of `random.shuffle`, an
arbitrary permutation supplied as a parameter). -/
def shuffleGroups (sh : List Company → List Company)
    (groups : List (String × List Company)) : List (String × List Company) :=
  groups.map (fun p => (p.1, sh p.2))

/-- `distribute_companies(companies, processed, num_workers)`: drop the
already-processed symbols, group the rest by country, shuffle each
group in place, then round-robin the groups' contents (concatenated in
dict order, one worker index carried across groups) over the
workers. -/
def distribute_companies (sh : List Company → List Company)
    (companies : List Company) (processed : List String) (num_workers : Nat) :
    List (List Company) :=
  roundRobin num_workers
    (((shuffleGroups sh
        (groupByCountry (unprocessed_companies companies processed))).map
      Prod.snd).flatten)

/-- `fetch_company_data(company, api_key)`: run the per-symbol script
as a subprocess and report success iff its exit status is `0`; any
exception raised on the way (modelled by `Except.error` from the
subprocess runner) is caught and reported as failure.  Total by
construction — it can never abort the batch. -/
def fetch_company_data (runScript : String → Except String Int) (c : Company) :
    Bool :=
  match runScript ("python scripts/fetch_financial_data.py --symbol " ++ c.symbol) with
  | Except.ok r => r == 0
  | Except.error _ => false

/-- The submission loop of the batch `main`: every company of every
worker list is submitted exactly once, in list order. -/
def submitted_companies (batches : List (List Company)) : List Company :=
  batches.flatten

/-- The result-collection loop of the batch `main`: one increment of
either the success or the failure counter per submitted company. -/
def run_batch (runScript : String → Except String Int)
    (batches : List (List Company)) : Nat × Nat :=
  (submitted_companies batches).foldl
    (fun sf c => if fetch_company_data runScript c then (sf.1 + 1, sf.2) else (sf.1, sf.2 + 1))
    (0, 0)

/-- Python's `str.replace('.', '_')` on a character list. -/
def replaceDotUnderscore (s : List Char) : List Char :=
  s.map (fun c => if c = '.' then '_' else c)

/-- Python's `str.split(sep)` for a single-character separator: splits
at every occurrence, keeping empty segments. -/
def splitOnChar (sep : Char) : List Char → List (List Char)
  | [] => [[]]
  | c :: rest =>
    let r := splitOnChar sep rest
    if c = sep then [] :: r
    else
      match r with
      | [] => [[c]]
      | h :: t => (c :: h) :: t

/-- Python's `str.isdigit` (restricted to the ASCII digits that occur
in the timestamps at hand): nonempty and all digits. -/
def pyIsDigit (s : List Char) : Bool :=
  !s.isEmpty && s.all Char.isDigit

/-- The stem of the output file written by
`scripts/fetch_financial_data.main` for `symbol`:
`symbol.replace('.', '_') + '_' + timestamp` (the `.json` extension is
already stripped by `Path.stem` on the reading side). -/
def output_stem (symbol ts : List Char) : List Char :=
  replaceDotUnderscore symbol ++ '_' :: ts

/-- The per-filename parse of `get_processed_companies`: split the stem
on `'_'`; with fewer than two parts the file is skipped; otherwise the
first part is the symbol, and the second part is re-attached with a dot
when it is not a digit string. -/
def symbolOfStem (stem : List Char) : Option (List Char) :=
  let parts := splitOnChar '_' stem
  if 2 ≤ parts.length then
    let p0 := parts.getD 0 []
    let p1 := parts.getD 1 []
    some (if pyIsDigit p1 then p0 else p0 ++ '.' :: p1)
  else none

/-- `get_processed_companies()`: the empty set when the output
directory does not exist, otherwise the symbols parsed from the stems
of the directory's `*.json` files. -/
def get_processed_companies (dirExists : Bool) (stems : List (List Char)) :
    List (List Char) :=
  if dirExists then stems.filterMap symbolOfStem else []

lemma replaceDotUnderscore_of_no_dot {s : List Char} (h : '.' ∉ s) :
    replaceDotUnderscore s = s := by
  induction s with
  | nil => rfl
  | cons c cs ih =>
    have hc : c ≠ '.' := fun hh => h (hh ▸ List.mem_cons_self c cs)
    have hcs : '.' ∉ cs := fun hh => h (List.mem_cons_of_mem c hh)
    simp only [replaceDotUnderscore] at ih ⊢
    simp [hc, ih hcs]

lemma replaceDotUnderscore_append (a b : List Char) :
    replaceDotUnderscore (a ++ b) =
      replaceDotUnderscore a ++ replaceDotUnderscore b := by
  simp [replaceDotUnderscore]

lemma replaceDotUnderscore_cons_dot (b : List Char) :
    replaceDotUnderscore ('.' :: b) = '_' :: replaceDotUnderscore b := by
  simp [replaceDotUnderscore]

lemma splitOnChar_append_sep (sep : Char) (x y : List Char) (hx : sep ∉ x) :
    splitOnChar sep (x ++ sep :: y) = x :: splitOnChar sep y := by
  induction x with
  | nil => simp [splitOnChar]
  | cons c cs ih =>
    have hc : c ≠ sep := fun hh => hx (hh ▸ List.mem_cons_self c cs)
    have hcs : sep ∉ cs := fun hh => hx (List.mem_cons_of_mem c hh)
    simp only [List.cons_append, splitOnChar, if_neg hc, List.append_eq, ih hcs]

lemma pyIsDigit_no_underscore {d : List Char} (h : pyIsDigit d = true) :
    '_' ∉ d := by
  intro hm
  have hall := (Bool.and_eq_true _ _ |>.mp h).2
  rw [List.all_eq_true] at hall
  have := hall '_' hm
  exact absurd this (by decide)

lemma symbolOfStem_no_dot {a d t : List Char}
    (ha_dot : '.' ∉ a) (ha_us : '_' ∉ a) (hd : pyIsDigit d = true) :
    symbolOfStem (output_stem a (d ++ '_' :: t)) = some a := by
  have hdus : '_' ∉ d := pyIsDigit_no_underscore hd
  have hstem : output_stem a (d ++ '_' :: t) = a ++ '_' :: (d ++ '_' :: t) := by
    unfold output_stem
    rw [replaceDotUnderscore_of_no_dot ha_dot]
  rw [hstem]
  unfold symbolOfStem
  rw [splitOnChar_append_sep _ _ _ ha_us, splitOnChar_append_sep _ _ _ hdus]
  simp [hd]

lemma symbolOfStem_one_dot {a b d t : List Char}
    (ha_dot : '.' ∉ a) (ha_us : '_' ∉ a)
    (hb_dot : '.' ∉ b) (hb_us : '_' ∉ b)
    (hd : pyIsDigit d = true) (hb : pyIsDigit b = false) :
    symbolOfStem (output_stem (a ++ '.' :: b) (d ++ '_' :: t)) =
      some (a ++ '.' :: b) := by
  have hdus : '_' ∉ d := pyIsDigit_no_underscore hd
  have hstem : output_stem (a ++ '.' :: b) (d ++ '_' :: t) =
      a ++ '_' :: (b ++ '_' :: (d ++ '_' :: t)) := by
    unfold output_stem
    rw [replaceDotUnderscore_append, replaceDotUnderscore_cons_dot,
        replaceDotUnderscore_of_no_dot ha_dot, replaceDotUnderscore_of_no_dot hb_dot]
    simp
  rw [hstem]
  unfold symbolOfStem
  rw [splitOnChar_append_sep _ _ _ ha_us, splitOnChar_append_sep _ _ _ hb_us,
      splitOnChar_append_sep _ _ _ hdus]
  simp [hb]

lemma mem_processed_of_stem {st sym : List Char} (h : symbolOfStem st = some sym)
    (stems : List (List Char)) :
    sym ∈ get_processed_companies true (stems ++ [st]) := by
  unfold get_processed_companies
  simp only [if_pos]
  exact List.mem_filterMap.mpr ⟨st, by simp, h⟩

/-- C1 (counterexample): the per-symbol orchestrator does not issue
eleven HTTP round-trips — its trace for the default symbol has a
different length. -/
theorem main_requests_length_ne_eleven :
    ¬ (main_requests "005930.KS").length = 11 := by decide

/-- C1 (amended): for every symbol, the per-symbol fetch orchestrator
issues exactly fifteen HTTP round-trips, in a fixed sequential order:
five annual-period statement calls, five quarterly-period statement
calls, one LTM composite call (three sub-requests) and one TTM
composite call (two sub-requests), with no interleaving between them. -/
theorem main_requests_fifteen_roundtrips (symbol : String) :
    main_requests symbol =
      [⟨"income-statement/" ++ symbol, some "annual", some 5⟩,
       ⟨"balance-sheet-statement/" ++ symbol, some "annual", some 5⟩,
       ⟨"cash-flow-statement/" ++ symbol, some "annual", some 5⟩,
       ⟨"ratios/" ++ symbol, some "annual", some 5⟩,
       ⟨"key-metrics/" ++ symbol, some "annual", some 5⟩,
       ⟨"income-statement/" ++ symbol, some "quarter", some 20⟩,
       ⟨"balance-sheet-statement/" ++ symbol, some "quarter", some 20⟩,
       ⟨"cash-flow-statement/" ++ symbol, some "quarter", some 20⟩,
       ⟨"ratios/" ++ symbol, some "quarter", some 20⟩,
       ⟨"key-metrics/" ++ symbol, some "quarter", some 20⟩,
       ⟨"income-statement-ltm/" ++ symbol, none, none⟩,
       ⟨"balance-sheet-statement-ltm/" ++ symbol, none, none⟩,
       ⟨"cash-flow-statement-ltm/" ++ symbol, none, none⟩,
       ⟨"ratios-ttm/" ++ symbol, none, none⟩,
       ⟨"key-metrics-ttm/" ++ symbol, none, none⟩] ∧
    (main_requests symbol).length = 15 := by
  exact ⟨rfl, rfl⟩

/-- C7: each of the five statement accessors, called without an
explicit limit, issues its request with `limit = 5` for the annual
period and `limit = 20` for the quarterly period; an explicitly
supplied limit is passed through unchanged (for any period). -/
theorem statement_accessor_default_limits (symbol period : String) (n : Nat) :
    ((get_income_statement symbol "annual" none).limit = some 5 ∧
     (get_income_statement symbol "quarter" none).limit = some 20 ∧
     (get_income_statement symbol period (some n)).limit = some n) ∧
    ((get_balance_sheet symbol "annual" none).limit = some 5 ∧
     (get_balance_sheet symbol "quarter" none).limit = some 20 ∧
     (get_balance_sheet symbol period (some n)).limit = some n) ∧
    ((get_cash_flow symbol "annual" none).limit = some 5 ∧
     (get_cash_flow symbol "quarter" none).limit = some 20 ∧
     (get_cash_flow symbol period (some n)).limit = some n) ∧
    ((get_financial_ratios symbol "annual" none).limit = some 5 ∧
     (get_financial_ratios symbol "quarter" none).limit = some 20 ∧
     (get_financial_ratios symbol period (some n)).limit = some n) ∧
    ((get_key_metrics symbol "annual" none).limit = some 5 ∧
     (get_key_metrics symbol "quarter" none).limit = some 20 ∧
     (get_key_metrics symbol period (some n)).limit = some n) :=
  ⟨⟨rfl, rfl, rfl⟩, ⟨rfl, rfl, rfl⟩, ⟨rfl, rfl, rfl⟩, ⟨rfl, rfl, rfl⟩,
   ⟨rfl, rfl, rfl⟩⟩

/-- C8 (counterexample): a record loaded without a country field is
grouped by `distribute_companies` under the key `"UNKNOWN"`, not
`"Unknown"` as the claim states. -/
theorem distribute_country_default_cex :
    distribute_country_key ⟨"SYM", "Name", none⟩ ≠ "Unknown" ∧
    groupByCountry [⟨"SYM", "Name", none⟩] =
      [("UNKNOWN", [⟨"SYM", "Name", none⟩])] := by
  exact ⟨by decide, rfl⟩

/-- C8 (amended): a record without a country field is reported by
`fetch_company_data` with the label `"Unknown"`, but grouped by
`distribute_companies` under the key `"UNKNOWN"`; a present country
field is passed through unchanged in both places. -/
theorem country_default_labels (c : Company) (h : c.country = none) :
    fetch_country_label c = "Unknown" ∧
    distribute_country_key c = "UNKNOWN" := by
  simp [fetch_country_label, distribute_country_key, h]

/-- Witness for `country_default_labels` at a concrete record. -/
theorem country_default_labels_witness :
    fetch_country_label ⟨"SYM", "Name", none⟩ = "Unknown" ∧
    distribute_country_key ⟨"SYM", "Name", none⟩ = "UNKNOWN" :=
  country_default_labels ⟨"SYM", "Name", none⟩ rfl

/-- C10: `get_processed_companies` is total on an empty or absent
output directory: a missing directory yields the empty set, and any
stem that splits on underscore into fewer than two parts is skipped
(never added), so a directory of such files also yields the empty
set. -/
theorem processed_scan_total :
    (∀ stems, get_processed_companies false stems = []) ∧
    (∀ stem, (splitOnChar '_' stem).length < 2 → symbolOfStem stem = none) ∧
    (∀ stems, (∀ s ∈ stems, (splitOnChar '_' s).length < 2) →
      get_processed_companies true stems = []) := by
  have hskip : ∀ stem, (splitOnChar '_' stem).length < 2 →
      symbolOfStem stem = none := by
    intro stem h
    unfold symbolOfStem
    simp only [if_neg (by omega : ¬ 2 ≤ (splitOnChar '_' stem).length)]
  refine ⟨fun stems => rfl, hskip, fun stems h => ?_⟩
  unfold get_processed_companies
  simp only [if_pos]
  exact List.filterMap_eq_nil_iff.mpr (fun s hs => hskip s (h s hs))

/-- Witness for `processed_scan_total` at concrete inputs. -/
theorem processed_scan_total_witness :
    get_processed_companies false [("AAPL_20250101_123456".toList)] = [] ∧
    symbolOfStem ("AAPL".toList) = none ∧
    get_processed_companies true [("AAPL".toList), ("X".toList)] = [] :=
  ⟨processed_scan_total.1 _,
   processed_scan_total.2.1 _ (by decide),
   processed_scan_total.2.2 _ (by decide)⟩

/-- C4 (counterexample): for the symbol `A.B.C` the filename
round-trip fails — rescanning the written file's stem yields the
symbol `A.B`, not `A.B.C`. -/
theorem processed_roundtrip_cex :
    symbolOfStem (output_stem ("A.B.C".toList) ("20250101_123456".toList)) =
      some ("A.B".toList) ∧
    ("A.B".toList : List Char) ≠ ("A.B.C".toList : List Char) := by
  exact ⟨rfl, by decide⟩

/-- C4 (amended): for every symbol that contains no underscore and at
most one dot, and whose part after the dot (when present) is not a
pure digit string, writing the output file and rescanning the output
directory places that exact symbol in the processed set (the timestamp
being `date_time` with an all-digit date part).  Symbols with
underscores, a second dot, or an all-digit exchange suffix can be
mis-parsed. -/
theorem processed_roundtrip (a b d t : List Char)
    (ha_dot : '.' ∉ a) (ha_us : '_' ∉ a)
    (hb_dot : '.' ∉ b) (hb_us : '_' ∉ b)
    (hd : pyIsDigit d = true) (hb : pyIsDigit b = false) :
    (symbolOfStem (output_stem a (d ++ '_' :: t)) = some a ∧
      ∀ stems, a ∈ get_processed_companies true
        (stems ++ [output_stem a (d ++ '_' :: t)])) ∧
    (symbolOfStem (output_stem (a ++ '.' :: b) (d ++ '_' :: t)) =
        some (a ++ '.' :: b) ∧
      ∀ stems, (a ++ '.' :: b) ∈ get_processed_companies true
        (stems ++ [output_stem (a ++ '.' :: b) (d ++ '_' :: t)])) := by
  have h1 := @symbolOfStem_no_dot a d t ha_dot ha_us hd
  have h2 := @symbolOfStem_one_dot a b d t ha_dot ha_us hb_dot hb_us hd hb
  exact ⟨⟨h1, mem_processed_of_stem h1⟩, ⟨h2, mem_processed_of_stem h2⟩⟩

/-- Witness for `processed_roundtrip` at the sample Korean ticker. -/
theorem processed_roundtrip_witness :
    symbolOfStem
        (output_stem ("005930".toList ++ '.' :: "KS".toList)
          ("20250101".toList ++ '_' :: "123456".toList)) =
      some ("005930".toList ++ '.' :: "KS".toList) :=
  (processed_roundtrip ("005930".toList) ("KS".toList) ("20250101".toList)
    ("123456".toList) (by decide) (by decide) (by decide) (by decide)
    (by decide) (by decide)).2.1

lemma lookupCountry_mem_symbol {rd : String → List Company} {s k : String}
    {c : Company} (h : lookupCountry rd s k = some c) :
    c ∈ rd k ∧ c.symbol = s := by
  unfold lookupCountry at h
  refine ⟨List.mem_of_find?_eq_some h, ?_⟩
  have hp := List.find?_some h
  simpa using hp

lemma trySuffixMatches_sound {rd : String → List Company} {s : String} :
    ∀ {table : List (String × String)} {c : Company} {k : String},
      trySuffixMatches rd s table = some (c, k) →
      ∃ suf, (suf, k) ∈ table ∧ pyEndsWith s suf = true ∧
        lookupCountry rd s k = some c := by
  intro table
  induction table with
  | nil => intro c k h; simp [trySuffixMatches] at h
  | cons p rest ih =>
    intro c k h
    obtain ⟨suf', k'⟩ := p
    rw [trySuffixMatches] at h
    by_cases he : pyEndsWith s suf'
    · rw [if_pos he] at h
      cases hl : lookupCountry rd s k' with
      | some c0 =>
        rw [hl] at h
        simp only [Option.some.injEq, Prod.mk.injEq] at h
        obtain ⟨rfl, rfl⟩ := h
        exact ⟨suf', List.mem_cons_self _ _, he, hl⟩
      | none =>
        rw [hl] at h
        obtain ⟨suf, hm, he2, hh⟩ := ih h
        exact ⟨suf, List.mem_cons_of_mem _ hm, he2, hh⟩
    · rw [if_neg he] at h
      obtain ⟨suf, hm, he2, hh⟩ := ih h
      exact ⟨suf, List.mem_cons_of_mem _ hm, he2, hh⟩

lemma trySuffixMatches_none_of_no_hit {rd : String → List Company} {s : String} :
    ∀ {table : List (String × String)},
      (∀ p ∈ table, lookupCountry rd s p.2 = none) →
      trySuffixMatches rd s table = none := by
  intro table
  induction table with
  | nil => intro _; rfl
  | cons p rest ih =>
    intro h
    obtain ⟨suf', k'⟩ := p
    rw [trySuffixMatches]
    have hrest := ih (fun q hq => h q (List.mem_cons_of_mem _ hq))
    by_cases he : pyEndsWith s suf'
    · rw [if_pos he, h (suf', k') (List.mem_cons_self _ _)]
      exact hrest
    · rw [if_neg he]
      exact hrest

lemma trySuffixMatches_none_of_no_suffix {rd : String → List Company} {s : String} :
    ∀ {table : List (String × String)},
      (∀ p ∈ table, pyEndsWith s p.1 = false) →
      trySuffixMatches rd s table = none := by
  intro table
  induction table with
  | nil => intro _; rfl
  | cons p rest ih =>
    intro h
    obtain ⟨suf', k'⟩ := p
    rw [trySuffixMatches]
    have he : pyEndsWith s suf' = false := h (suf', k') (List.mem_cons_self _ _)
    rw [if_neg (by simp [he])]
    exact ih (fun q hq => h q (List.mem_cons_of_mem _ hq))

lemma trySuffixMatches_finds {rd : String → List Company} {s : String} :
    ∀ {table : List (String × String)} {suf k : String} {c : Company},
      (suf, k) ∈ table → pyEndsWith s suf = true →
      lookupCountry rd s k = some c →
      (∀ p ∈ table, p.2 ≠ k → lookupCountry rd s p.2 = none) →
      trySuffixMatches rd s table = some (c, k) := by
  intro table
  induction table with
  | nil => intro suf k c hm _ _ _; simp at hm
  | cons p rest ih =>
    intro suf k c hm he hl huniq
    obtain ⟨suf', k'⟩ := p
    rw [trySuffixMatches]
    by_cases he' : pyEndsWith s suf'
    · rw [if_pos he']
      by_cases hk : k' = k
      · subst hk
        rw [hl]
      · have hnone : lookupCountry rd s k' = none :=
          huniq (suf', k') (List.mem_cons_self _ _) hk
        rw [hnone]
        have hm' : (suf, k) ∈ rest := by
          rcases List.mem_cons.mp hm with h1 | h1
          · exact absurd (congrArg Prod.snd h1).symm hk
          · exact h1
        exact ih hm' he hl (fun q hq => huniq q (List.mem_cons_of_mem _ hq))
    · rw [if_neg he']
      have hm' : (suf, k) ∈ rest := by
        rcases List.mem_cons.mp hm with h1 | h1
        · have hs : suf = suf' := congrArg Prod.fst h1
          exact absurd (hs ▸ he) he'
        · exact h1
      exact ih hm' he hl (fun q hq => huniq q (List.mem_cons_of_mem _ hq))

/-- C3 (counterexample): a symbol ending in the recognized suffix
`.KS` can resolve with country `"US"`: when the KR reference set lacks
the symbol, the suffix loop falls through (`StopIteration` →
`continue`) and the US fallback search runs, so a `.KS` symbol present
only in the US set is returned with an inconsistent country code. -/
theorem resolve_suffix_cex :
    ¬ (∀ (rd : String → List Company) (s : String) (c : Company) (k : String),
        pyEndsWith s ".KS" = true →
        find_company_by_symbol rd s = Except.ok (c, k) → k = "KR") := by
  intro h
  have := h (fun k => if k = "US" then [⟨"FOO.KS", "Foo", some "US"⟩] else [])
      "FOO.KS" ⟨"FOO.KS", "Foo", some "US"⟩ "US" (by decide) rfl
  exact absurd this (by decide)

/-- C3 (amended): whenever the suffix loop of `resolve` produces a
result, the returned country is mapped by a table suffix the symbol
ends with and the record is an exact symbol match from that country's
reference set; a symbol whose suffixed lookup misses falls through to
the US search (so its returned country can be US); and for every
symbol ending in no recognized suffix the resolution is exactly the
US-only search. -/
theorem resolve_suffix_consistent (rd : String → List Company) (s : String) :
    (∀ c k, trySuffixMatches rd s suffix_to_country = some (c, k) →
        find_company_by_symbol rd s = Except.ok (c, k) ∧
        ∃ suf, (suf, k) ∈ suffix_to_country ∧ pyEndsWith s suf = true ∧
          c ∈ rd k ∧ c.symbol = s) ∧
    ((∀ p ∈ suffix_to_country, pyEndsWith s p.1 = false) →
        find_company_by_symbol rd s =
          match lookupCountry rd s "US" with
          | some c => Except.ok (c, "US")
          | none => Except.error ("symbol not found: " ++ s)) := by
  constructor
  · intro c k h
    refine ⟨?_, ?_⟩
    · unfold find_company_by_symbol
      rw [h]
    · obtain ⟨suf, hm, he, hl⟩ := trySuffixMatches_sound h
      obtain ⟨hc, hs⟩ := lookupCountry_mem_symbol hl
      exact ⟨suf, hm, he, hc, hs⟩
  · intro h
    unfold find_company_by_symbol
    rw [trySuffixMatches_none_of_no_suffix h]

/-- Witness for `resolve_suffix_consistent`: the sample Korean ticker
resolves through the `.KS → KR` table entry. -/
theorem resolve_suffix_consistent_witness :
    find_company_by_symbol
        (fun k => if k = "KR" then [⟨"005930.KS", "Samsung", some "KR"⟩] else [])
        "005930.KS" =
      Except.ok (⟨"005930.KS", "Samsung", some "KR"⟩, "KR") ∧
    ∃ suf, (suf, "KR") ∈ suffix_to_country ∧
      pyEndsWith "005930.KS" suf = true ∧
      (⟨"005930.KS", "Samsung", some "KR"⟩ : Company) ∈
        (fun k => if k = "KR" then [⟨"005930.KS", "Samsung", some "KR"⟩] else []) "KR" ∧
      (⟨"005930.KS", "Samsung", some "KR"⟩ : Company).symbol = "005930.KS" :=
  (resolve_suffix_consistent _ "005930.KS").1 _ "KR" rfl

/-- C6 (counterexample): a symbol present in exactly one country's
reference set need not be found: `AAPL` present only in the KR set is
never searched there (no suffix selects KR and the fallback searches
only US), so `resolve` raises instead of returning the record. -/
theorem resolve_present_one_cex :
    ¬ (∀ (rd : String → List Company) (s : String),
        (∃ k, k ∈ all_country_codes ∧ (∃ c ∈ rd k, c.symbol = s) ∧
          (∀ k2 ∈ all_country_codes, (∃ c ∈ rd k2, c.symbol = s) → k2 = k)) →
        ∃ r, find_company_by_symbol rd s = Except.ok r) := by
  intro h
  obtain ⟨r, hr⟩ := h (fun k => if k = "KR" then [⟨"AAPL", "Apple", none⟩] else [])
      "AAPL" ⟨"KR", by decide, ⟨⟨"AAPL", "Apple", none⟩, by decide, rfl⟩, by decide⟩
  have heq : find_company_by_symbol
      (fun k => if k = "KR" then [⟨"AAPL", "Apple", none⟩] else []) "AAPL" =
      Except.error ("symbol not found: " ++ "AAPL") := rfl
  rw [heq] at hr
  exact Except.noConfusion hr

/-- C6 (amended): a symbol found in the reference set its resolution
path searches is returned with that country code — via its suffix's
country when a table suffix matches and no other country has the
symbol, or via the US set when no suffix matches; and a symbol present
in no country's reference set makes `resolve` fail with a raised
error, not a normal return. -/
theorem resolve_hit_and_miss (rd : String → List Company) (s : String) :
    (∀ suf k c, (suf, k) ∈ suffix_to_country → pyEndsWith s suf = true →
        lookupCountry rd s k = some c →
        (∀ p ∈ suffix_to_country, p.2 ≠ k → lookupCountry rd s p.2 = none) →
        find_company_by_symbol rd s = Except.ok (c, k)) ∧
    ((∀ p ∈ suffix_to_country, pyEndsWith s p.1 = false) →
        ∀ c, lookupCountry rd s "US" = some c →
        find_company_by_symbol rd s = Except.ok (c, "US")) ∧
    ((∀ k ∈ all_country_codes, lookupCountry rd s k = none) →
        find_company_by_symbol rd s = Except.error ("symbol not found: " ++ s)) := by
  refine ⟨?_, ?_, ?_⟩
  · intro suf k c hm he hl huniq
    unfold find_company_by_symbol
    rw [trySuffixMatches_finds hm he hl huniq]
  · intro h c hl
    unfold find_company_by_symbol
    rw [trySuffixMatches_none_of_no_suffix h, hl]
  · intro h
    have htab : ∀ p ∈ suffix_to_country, lookupCountry rd s p.2 = none := by
      intro p hp
      apply h
      fin_cases hp <;> decide
    unfold find_company_by_symbol
    rw [trySuffixMatches_none_of_no_hit htab, h "US" (by decide)]

/-- Witness for `resolve_hit_and_miss`: an unsuffixed symbol present
in the US reference set is returned with country `"US"`. -/
theorem resolve_hit_and_miss_witness :
    find_company_by_symbol
        (fun k => if k = "US" then [⟨"AAPL", "Apple", some "US"⟩] else [])
        "AAPL" =
      Except.ok (⟨"AAPL", "Apple", some "US"⟩, "US") :=
  (resolve_hit_and_miss _ "AAPL").2.1 (by decide) _ rfl

lemma addToGroup_flatten_perm (acc : List (String × List Company)) (k : String)
    (c : Company) :
    List.Perm ((addToGroup acc k c).map Prod.snd).flatten
      ((acc.map Prod.snd).flatten ++ [c]) := by
  induction acc with
  | nil => simp [addToGroup]
  | cons p rest ih =>
    obtain ⟨k', g⟩ := p
    by_cases hk : k' = k
    · simp only [addToGroup, if_pos hk, List.map_cons, List.flatten_cons]
      rw [List.append_assoc, List.append_assoc]
      exact List.Perm.append_left g List.perm_append_comm
    · simp only [addToGroup, if_neg hk, List.map_cons, List.flatten_cons]
      refine (List.Perm.append_left g ih).trans (List.Perm.of_eq ?_)
      simp [List.append_assoc]

lemma groupBy_foldl_flatten_perm (l : List Company) :
    ∀ acc : List (String × List Company),
      List.Perm
        (((l.foldl (fun acc c => addToGroup acc (distribute_country_key c) c)
          acc).map Prod.snd).flatten)
        ((acc.map Prod.snd).flatten ++ l) := by
  induction l with
  | nil => intro acc; simp
  | cons c cs ih =>
    intro acc
    rw [List.foldl_cons]
    refine (ih _).trans ?_
    have h1 := addToGroup_flatten_perm acc (distribute_country_key c) c
    refine (h1.append_right cs).trans (List.Perm.of_eq ?_)
    simp [List.append_assoc]

lemma groupByCountry_flatten_perm (l : List Company) :
    List.Perm ((groupByCountry l).map Prod.snd).flatten l := by
  have h := groupBy_foldl_flatten_perm l []
  simpa [groupByCountry] using h

lemma shuffleGroups_flatten_perm (sh : List Company → List Company)
    (hsh : ∀ g, (sh g).Perm g) (groups : List (String × List Company)) :
    List.Perm (((shuffleGroups sh groups).map Prod.snd).flatten)
      ((groups.map Prod.snd).flatten) := by
  unfold shuffleGroups
  simp only [List.map_map]
  apply List.Perm.flatten_congr
  rw [List.forall₂_map_right_iff, List.forall₂_map_left_iff]
  exact List.forall₂_same.mpr (fun p _ => hsh p.2)

lemma set_append_flatten_perm {dist : List (List Company)} {idx : Nat}
    (h : idx < dist.length) (c : Company) :
    List.Perm (dist.set idx (dist.getD idx [] ++ [c])).flatten
      (dist.flatten ++ [c]) := by
  induction dist generalizing idx with
  | nil => simp at h
  | cons g rest ih =>
    cases idx with
    | zero =>
      simp only [List.set_cons_zero, List.getD_cons_zero, List.flatten_cons]
      rw [List.append_assoc, List.append_assoc]
      exact List.Perm.append_left g List.perm_append_comm
    | succ i =>
      have h' : i < rest.length := by simpa using h
      simp only [List.set_cons_succ, List.getD_cons_succ, List.flatten_cons]
      refine (List.Perm.append_left g (ih h')).trans (List.Perm.of_eq ?_)
      simp [List.append_assoc]

lemma roundRobin_foldl_flatten_perm {n : Nat} (hn : 1 ≤ n) (l : List Company) :
    ∀ (dist : List (List Company)) (idx : Nat), dist.length = n → idx < n →
      List.Perm ((l.foldl (rrStep n) (dist, idx)).1).flatten
        (dist.flatten ++ l) := by
  induction l with
  | nil => intro dist idx _ _; simp
  | cons c cs ih =>
    intro dist idx hlen hidx
    rw [List.foldl_cons]
    have hstep : rrStep n (dist, idx) c =
        (dist.set idx (dist.getD idx [] ++ [c]), (idx + 1) % n) := rfl
    rw [hstep]
    have hlen' : (dist.set idx (dist.getD idx [] ++ [c])).length = n := by
      simp [hlen]
    have hidx' : (idx + 1) % n < n := Nat.mod_lt _ (by omega)
    refine (ih _ _ hlen' hidx').trans ?_
    have h1 := @set_append_flatten_perm dist idx
      (by omega : idx < dist.length) c
    refine (h1.append_right cs).trans (List.Perm.of_eq ?_)
    simp [List.append_assoc]

lemma roundRobin_flatten_perm {n : Nat} (hn : 1 ≤ n) (l : List Company) :
    List.Perm (roundRobin n l).flatten l := by
  have h := roundRobin_foldl_flatten_perm hn l (List.replicate n []) 0
    (by simp) (by omega)
  simpa [roundRobin] using h

lemma distribute_flatten_perm (sh : List Company → List Company)
    (hsh : ∀ g, (sh g).Perm g) (companies : List Company)
    (processed : List String) {n : Nat} (hn : 1 ≤ n) :
    List.Perm (distribute_companies sh companies processed n).flatten
      (unprocessed_companies companies processed) := by
  unfold distribute_companies
  refine (roundRobin_flatten_perm hn _).trans ?_
  exact (shuffleGroups_flatten_perm sh hsh _).trans
    (groupByCountry_flatten_perm _)

/-- C2 (counterexample): with a duplicated input record the
distribution is not duplicate-free — both copies of the record are
distributed, so the claim's "no company appears twice" fails for a
list of companies that repeats a record. -/
theorem distribute_duplicate_cex :
    distribute_companies id [⟨"A", "a", none⟩, ⟨"A", "a", none⟩] [] 1 =
      [[⟨"A", "a", none⟩, ⟨"A", "a", none⟩]] ∧
    ¬ (distribute_companies id [⟨"A", "a", none⟩, ⟨"A", "a", none⟩] [] 1).flatten.Nodup :=
  ⟨rfl, by decide⟩

/-- C2 (amended): for every duplicate-free list of companies, every
processed-symbol set and every `worker_count ≥ 1`, the distribution is
lossless and exhaustive: a company lies in the union of the per-worker
lists returned by `distribute_companies` exactly when it is an input
company whose symbol is not in the processed set, and no company
appears in more than one list nor twice in one list (the concatenation
of the per-worker lists is duplicate-free). -/
theorem distribute_lossless (sh : List Company → List Company)
    (companies : List Company) (processed : List String) (num_workers : Nat)
    (hn : 1 ≤ num_workers) (hsh : ∀ g, (sh g).Perm g)
    (hnd : companies.Nodup) :
    (∀ c, c ∈ (distribute_companies sh companies processed num_workers).flatten ↔
      (c ∈ companies ∧ processed.contains c.symbol = false)) ∧
    (distribute_companies sh companies processed num_workers).flatten.Nodup := by
  have hperm := distribute_flatten_perm sh hsh companies processed hn
  constructor
  · intro c
    rw [hperm.mem_iff]
    simp [unprocessed_companies, List.mem_filter]
  · exact hperm.nodup_iff.mpr (hnd.filter _)

/-- Witness for `distribute_lossless` on a concrete two-company,
two-worker instance. -/
theorem distribute_lossless_witness :
    (∀ c, c ∈ (distribute_companies id
        [⟨"A", "a", none⟩, ⟨"B", "b", some "US"⟩] ["C"] 2).flatten ↔
      (c ∈ [⟨"A", "a", none⟩, ⟨"B", "b", some "US"⟩] ∧
        (["C"] : List String).contains c.symbol = false)) ∧
    (distribute_companies id
      [⟨"A", "a", none⟩, ⟨"B", "b", some "US"⟩] ["C"] 2).flatten.Nodup :=
  distribute_lossless id [⟨"A", "a", none⟩, ⟨"B", "b", some "US"⟩] ["C"] 2
    (by omega) (fun g => List.Perm.refl g) (by decide)

lemma run_batch_foldl_total (rs : String → Except String Int) :
    ∀ (l : List Company) (sf : Nat × Nat),
      (l.foldl (fun sf c => if fetch_company_data rs c then (sf.1 + 1, sf.2)
        else (sf.1, sf.2 + 1)) sf).1 +
      (l.foldl (fun sf c => if fetch_company_data rs c then (sf.1 + 1, sf.2)
        else (sf.1, sf.2 + 1)) sf).2 = sf.1 + sf.2 + l.length := by
  intro l
  induction l with
  | nil => intro sf; simp
  | cons c cs ih =>
    intro sf
    rw [List.foldl_cons]
    by_cases h : fetch_company_data rs c
    · rw [if_pos h, ih]
      simp
      omega
    · rw [if_neg h, ih]
      simp
      omega

/-- C5: in the batch run, a per-symbol failure (any raised exception
from the subprocess runner) is absorbed by `fetch_company_data` and
reported as failure, never aborting the batch; the success and failure
counters collected by `main` always sum to the number of submitted
companies; and with duplicate-free input every unprocessed company is
submitted exactly once. -/
theorem batch_counts_complete (runScript : String → Except String Int)
    (sh : List Company → List Company) (companies : List Company)
    (processed : List String) (num_workers : Nat)
    (hn : 1 ≤ num_workers) (hsh : ∀ g, (sh g).Perm g)
    (hnd : companies.Nodup) :
    (∀ c e, runScript ("python scripts/fetch_financial_data.py --symbol " ++
        c.symbol) = Except.error e →
      fetch_company_data runScript c = false) ∧
    ((run_batch runScript
        (distribute_companies sh companies processed num_workers)).1 +
      (run_batch runScript
        (distribute_companies sh companies processed num_workers)).2 =
      (submitted_companies
        (distribute_companies sh companies processed num_workers)).length) ∧
    (∀ c ∈ companies, processed.contains c.symbol = false →
      (submitted_companies
        (distribute_companies sh companies processed num_workers)).count c = 1) := by
  refine ⟨?_, ?_, ?_⟩
  · intro c e h
    unfold fetch_company_data
    rw [h]
  · unfold run_batch
    rw [run_batch_foldl_total]
    simp
  · intro c hc hp
    have hperm := distribute_flatten_perm sh hsh companies processed hn
    have hmem : c ∈ unprocessed_companies companies processed := by
      simp only [unprocessed_companies, List.mem_filter, hc, true_and,
        Bool.not_eq_true']
      exact hp
    have hnd' : (unprocessed_companies companies processed).Nodup :=
      hnd.filter _
    unfold submitted_companies
    rw [hperm.count_eq c]
    exact List.count_eq_one_of_mem hnd' hmem

/-- Witness for `batch_counts_complete`: a runner that always raises
still yields failure results that sum to the number of submitted
companies. -/
theorem batch_counts_complete_witness :
    fetch_company_data (fun _ => Except.error "boom") ⟨"A", "a", none⟩ = false ∧
    (run_batch (fun _ => Except.error "boom")
        (distribute_companies id [⟨"A", "a", none⟩, ⟨"B", "b", none⟩] [] 1)).1 +
      (run_batch (fun _ => Except.error "boom")
        (distribute_companies id [⟨"A", "a", none⟩, ⟨"B", "b", none⟩] [] 1)).2 =
      (submitted_companies
        (distribute_companies id [⟨"A", "a", none⟩, ⟨"B", "b", none⟩] [] 1)).length ∧
    (submitted_companies
      (distribute_companies id [⟨"A", "a", none⟩, ⟨"B", "b", none⟩] [] 1)).count
        ⟨"A", "a", none⟩ = 1 :=
  ⟨(batch_counts_complete (fun _ => Except.error "boom") id
      [⟨"A", "a", none⟩, ⟨"B", "b", none⟩] [] 1 (by omega)
      (fun g => List.Perm.refl g) (by decide)).1 _ "boom" rfl,
   (batch_counts_complete (fun _ => Except.error "boom") id
      [⟨"A", "a", none⟩, ⟨"B", "b", none⟩] [] 1 (by omega)
      (fun g => List.Perm.refl g) (by decide)).2.1,
   (batch_counts_complete (fun _ => Except.error "boom") id
      [⟨"A", "a", none⟩, ⟨"B", "b", none⟩] [] 1 (by omega)
      (fun g => List.Perm.refl g) (by decide)).2.2 _ (by decide) rfl⟩

lemma balance_step (n i m : Nat) (hn : 1 ≤ n) (hi : i < n) :
    m / n + (if i < m % n then 1 else 0) + (if i = m % n then 1 else 0) =
      (m + 1) / n + (if i < (m + 1) % n then 1 else 0) := by
  have hr : m % n < n := Nat.mod_lt _ (by omega)
  have hdm := Nat.div_add_mod m n
  by_cases h : m % n + 1 = n
  · have hm1 : m + 1 = n * (m / n + 1) := by rw [Nat.mul_succ]; omega
    have hdiv : (m + 1) / n = m / n + 1 := by
      rw [hm1]
      exact Nat.mul_div_cancel_left _ (by omega)
    have hmod : (m + 1) % n = 0 := by
      rw [hm1]
      exact Nat.mul_mod_right _ _
    rw [hdiv, hmod]
    split_ifs <;> omega
  · have hm1 : m + 1 = n * (m / n) + (m % n + 1) := by omega
    have hdiv : (m + 1) / n = m / n := by
      rw [hm1, Nat.mul_add_div (by omega)]
      simp [Nat.div_eq_of_lt (show m % n + 1 < n by omega)]
    have hmod : (m + 1) % n = m % n + 1 := by
      rw [hm1, Nat.mul_add_mod]
      exact Nat.mod_eq_of_lt (by omega)
    rw [hdiv, hmod]
    split_ifs <;> omega

lemma roundRobin_foldl_state (n : Nat) (hn : 1 ≤ n) (l : List Company) :
    ((l.foldl (rrStep n) (List.replicate n [], 0)).1).length = n ∧
    (l.foldl (rrStep n) (List.replicate n [], 0)).2 = l.length % n ∧
    (∀ i, i < n →
      (((l.foldl (rrStep n) (List.replicate n [], 0)).1).getD i []).length =
        l.length / n + (if i < l.length % n then 1 else 0)) := by
  induction l using List.reverseRecOn with
  | nil =>
    refine ⟨by simp, by simp, ?_⟩
    intro i hi
    simp [List.getD]
  | append_singleton xs c ih =>
    obtain ⟨hlen, hidx, hget⟩ := ih
    have hm : xs.length % n < n := Nat.mod_lt _ (by omega)
    rw [List.foldl_append, List.foldl_cons, List.foldl_nil]
    set F := xs.foldl (rrStep n) (List.replicate n [], 0) with hF
    have hxs : (xs ++ [c]).length = xs.length + 1 := by simp
    refine ⟨by simp [rrStep, hlen], ?_, ?_⟩
    · show (F.2 + 1) % n = (xs ++ [c]).length % n
      rw [hidx, hxs]
      exact Nat.mod_add_mod xs.length n 1
    · intro i hi
      have hsetlen : F.2 < F.1.length := by
        rw [hlen, hidx]
        exact hm
      simp only [rrStep]
      rw [hxs, ← balance_step n i xs.length hn hi]
      by_cases hie : i = F.2
      · rw [hie]
        have hF2 : F.2 < n := by
          rw [hidx]
          exact hm
        have hgd : (F.1.set F.2 (F.1.getD F.2 [] ++ [c])).getD F.2 [] =
            F.1.getD F.2 [] ++ [c] := by
          simp [List.getD, List.getElem?_set_eq_of_lt _ hsetlen]
        rw [hgd, List.length_append, hget F.2 hF2, hidx]
        simp
      · have hne : F.2 ≠ i := fun hh => hie hh.symm
        have hgd : (F.1.set F.2 (F.1.getD F.2 [] ++ [c])).getD i [] =
            F.1.getD i [] := by
          simp [List.getD, List.getElem?_set_ne hne]
        rw [hgd, hget i hi]
        have hine : ¬ i = xs.length % n := by
          rw [← hidx]
          exact hie
        simp [hine]

lemma roundRobin_lengths {n : Nat} (hn : 1 ≤ n) (l : List Company) :
    (roundRobin n l).length = n ∧
    ∀ i, i < n → ((roundRobin n l).getD i []).length =
      l.length / n + (if i < l.length % n then 1 else 0) := by
  have h := roundRobin_foldl_state n hn l
  exact ⟨h.1, h.2.2⟩

lemma ceil_div_eq (n m : Nat) (hn : 1 ≤ n) :
    (m + n - 1) / n = m / n + (if m % n = 0 then 0 else 1) := by
  have hdm := Nat.div_add_mod m n
  have hr : m % n < n := Nat.mod_lt _ (by omega)
  by_cases h : m % n = 0
  · rw [if_pos h]
    have hm1 : m + n - 1 = n * (m / n) + (n - 1) := by omega
    rw [hm1, Nat.mul_add_div (by omega),
      Nat.div_eq_of_lt (show n - 1 < n by omega)]
  · rw [if_neg h]
    have hm1 : m + n - 1 = n * (m / n + 1) + (m % n - 1) := by
      rw [Nat.mul_add, Nat.mul_one]
      omega
    rw [hm1, Nat.mul_add_div (by omega),
      Nat.div_eq_of_lt (show m % n - 1 < n by omega)]

/-- C9: for every worker count `N ≥ 1`, `distribute_companies` returns
exactly `N` lists, and every per-worker list has either
`⌊n / N⌋` or `⌈n / N⌉` elements, where `n` is the number of
unprocessed companies — the single round-robin index carried across
all country groups keeps the lists balanced within one element. -/
theorem distribute_balanced (sh : List Company → List Company)
    (companies : List Company) (processed : List String) (num_workers : Nat)
    (hn : 1 ≤ num_workers) (hsh : ∀ g, (sh g).Perm g) :
    (distribute_companies sh companies processed num_workers).length =
      num_workers ∧
    ∀ w ∈ distribute_companies sh companies processed num_workers,
      w.length = (unprocessed_companies companies processed).length /
        num_workers ∨
      w.length = ((unprocessed_companies companies processed).length +
        num_workers - 1) / num_workers := by
  have hclen : (((shuffleGroups sh (groupByCountry
      (unprocessed_companies companies processed))).map Prod.snd).flatten).length =
      (unprocessed_companies companies processed).length :=
    List.Perm.length_eq ((shuffleGroups_flatten_perm sh hsh _).trans
      (groupByCountry_flatten_perm _))
  have hrr := roundRobin_lengths hn (((shuffleGroups sh (groupByCountry
    (unprocessed_companies companies processed))).map Prod.snd).flatten)
  unfold distribute_companies
  refine ⟨hrr.1, ?_⟩
  intro w hw
  obtain ⟨i, hilen, hig⟩ := List.mem_iff_getElem.mp hw
  have hi : i < num_workers := hrr.1 ▸ hilen
  have hgd : (roundRobin num_workers (((shuffleGroups sh (groupByCountry
      (unprocessed_companies companies processed))).map Prod.snd).flatten)).getD
        i [] = w := by
    simp only [List.getD, List.get?_eq_getElem?, List.getElem?_eq_getElem hilen,
      Option.getD_some]
    exact hig
  have hlenw := hrr.2 i hi
  rw [hgd, hclen] at hlenw
  by_cases hcase : i <
      (unprocessed_companies companies processed).length % num_workers
  · right
    rw [hlenw, if_pos hcase, ceil_div_eq _ _ hn, if_neg (by omega)]
  · left
    rw [hlenw, if_neg hcase]
    omega

/-- Witness for `distribute_balanced`: five companies over two workers
give the first worker a list of floor- or ceiling-balanced length. -/
theorem distribute_balanced_witness :
    ((distribute_companies id
        [⟨"A", "a", none⟩, ⟨"B", "b", none⟩, ⟨"C", "c", none⟩,
         ⟨"D", "d", none⟩, ⟨"E", "e", none⟩] [] 2).getD 0 []).length =
      (unprocessed_companies
        [⟨"A", "a", none⟩, ⟨"B", "b", none⟩, ⟨"C", "c", none⟩,
         ⟨"D", "d", none⟩, ⟨"E", "e", none⟩] []).length / 2 ∨
    ((distribute_companies id
        [⟨"A", "a", none⟩, ⟨"B", "b", none⟩, ⟨"C", "c", none⟩,
         ⟨"D", "d", none⟩, ⟨"E", "e", none⟩] [] 2).getD 0 []).length =
      ((unprocessed_companies
        [⟨"A", "a", none⟩, ⟨"B", "b", none⟩, ⟨"C", "c", none⟩,
         ⟨"D", "d", none⟩, ⟨"E", "e", none⟩] []).length + 2 - 1) / 2 :=
  (distribute_balanced id
    [⟨"A", "a", none⟩, ⟨"B", "b", none⟩, ⟨"C", "c", none⟩,
     ⟨"D", "d", none⟩, ⟨"E", "e", none⟩] [] 2 (by omega)
    (fun g => List.Perm.refl g)).2 _ (by decide)
